import Mathlib

/-!
Verification of the object-introspection report generator in `SRC/tools.py`
(`inspect` and its nested helpers `getdetail` and `fold`).

Strings are modelled as `List Char`; Python `int` as `Int` where negative
values matter.  Python operations that can raise (`[0]` on an empty
string/list, `range(0, n, 0)`, `max([])`) are modelled with `Option`:
`none` means the corresponding Python code raises an exception.
-/

abbrev Chars := List Char

/-- Python `str.strip()`: drop leading and trailing whitespace. -/
def pyStrip (s : Chars) : Chars :=
  ((s.dropWhile (fun c => c.isWhitespace)).reverse.dropWhile (fun c => c.isWhitespace)).reverse

/-- Python slicing `s[:i]` for an `Int` index: a negative index counts from
the end (clamped at 0), a nonnegative index is clamped at the length. -/
def pySlice (s : Chars) (i : Int) : Chars :=
  if i < 0 then s.take (((s.length : Int) + i).toNat) else s.take i.toNat

/-- Python `s.find(c)`: index of the first occurrence, `-1` when absent. -/
def pyFind (c : Char) (s : Chars) : Int :=
  if s.contains c then ((s.takeWhile (fun a => a != c)).length : Int) else -1

/-- Python `s.split('\n')`: split on every newline, keeping empty pieces. -/
def splitLines : Chars → List Chars
  | [] => [[]]
  | c :: r =>
    if c = '\n' then [] :: splitLines r
    else
      match splitLines r with
      | [] => [[c]]
      | l :: ls => (c :: l) :: ls

/-- Python `sep.join(pieces)`. -/
def joinWith (sep : Chars) : List Chars → Chars
  | [] => []
  | [l] => l
  | l :: l2 :: ls => l ++ sep ++ joinWith sep (l2 :: ls)

/-- Python `'\n'.join(pieces)`. -/
def joinLines : List Chars → Chars := joinWith ['\n']

/-- A line matching the regex `^[-=]{3,}$`: three or more characters, each
of which is `-` or `=`. -/
def isDivider (l : Chars) : Bool :=
  decide (3 ≤ l.length) && l.all (fun c => c = '-' || c = '=')

/-- `re.sub(r'^[-=]{3,}$', '', doc, flags=re.MULTILINE)`: every line that is
a divider has its content replaced by the empty string (the line itself, and
its surrounding newlines, remain). -/
def stripDividers (d : Chars) : Chars :=
  joinLines ((splitLines d).map (fun l => if isDivider l then [] else l))

/-- Python `s.split('\n\n')`: split on each non-overlapping double newline,
scanning left to right. -/
def splitBlocks : Chars → List Chars
  | [] => [[]]
  | [c] => [[c]]
  | a :: b :: r =>
    if a = '\n' then
      if b = '\n' then [] :: splitBlocks r
      else
        match splitBlocks (b :: r) with
        | [] => [[a]]
        | l :: ls => (a :: l) :: ls
    else
      match splitBlocks (b :: r) with
      | [] => [[a]]
      | l :: ls => (a :: l) :: ls

/-- Python `block.split()[0]`: the first whitespace-delimited token of a
block, or `none` when the block has no token (then `[0]` raises
`IndexError`). -/
def firstWord (b : Chars) : Option Chars :=
  match b.dropWhile (fun c => c.isWhitespace) with
  | [] => none
  | c :: r => some ((c :: r).takeWhile (fun a => !a.isWhitespace))

/-- The block-selection loop of `getdetail`:
`for block in blocks: if '(' not in block.split()[0]: break`.
Blocks whose first token contains `'('` are skipped; when the loop runs out,
the Python loop variable keeps the last block.  `none` models the
`IndexError` raised by `block.split()[0]` on a token-less block. -/
def pickBlock : List Chars → Option Chars
  | [] => none
  | [b] =>
    match firstWord b with
    | none => none
    | some _ => some b
  | b :: b2 :: rest =>
    match firstWord b with
    | none => none
    | some wd => if wd.contains '(' then pickBlock (b2 :: rest) else some b

/-- Python `doc.replace('\n\n', '\n')`: one left-to-right pass replacing each
non-overlapping double newline by a single newline. -/
def collapse : Chars → Chars
  | [] => []
  | [c] => [c]
  | a :: b :: r =>
    if a = '\n' then
      if b = '\n' then '\n' :: collapse r
      else a :: collapse (b :: r)
    else a :: collapse (b :: r)

/-- Python `doc.replace('\n', '\n  ')`: two spaces inserted after every
newline (the first line is left untouched). -/
def indent2 : Chars → Chars
  | [] => []
  | c :: r => if c = '\n' then '\n' :: ' ' :: ' ' :: indent2 r else c :: indent2 r

/-- Modelled from the spec side of claim C9: "after the added two-space
indentation is stripped" — the inverse pass `replace('\n  ', '\n')`,
removing two spaces after each newline (leftmost, non-overlapping). -/
def stripIndent : Chars → Chars
  | [] => []
  | [a] => [a]
  | [a, b] => [a, b]
  | a :: b :: c :: r =>
    if a = '\n' ∧ b = ' ' ∧ c = ' ' then '\n' :: stripIndent r
    else a :: stripIndent (b :: c :: r)

/-- The placeholder `'<empty docstring>'`. -/
def placeholderDoc : Chars := "<empty docstring>".toList

/-- `doc = doc.strip() if doc else '<empty docstring>'` applied to the result
of `getdoc` (`none` = `getdoc` returned `None`; the empty string is falsy in
Python, hence also replaced by the placeholder). -/
def docText : Option Chars → Chars
  | none => placeholderDoc
  | some d => if d = [] then placeholderDoc else pyStrip d

/-- `index = width if '\n' not in block else min(width, block.find('\n'))`. -/
def truncIndex (block : Chars) (w : Int) : Int :=
  if block.contains '\n' then min w (pyFind '\n' block) else w

/-- The nested `getdetail(object, detail, width)` of `inspect`, applied to
the already-retrieved docstring.  `none` models an uncaught exception. -/
def getdetail (doc? : Option Chars) (detail : Nat) (w : Int) : Option Chars :=
  let doc := docText doc?
  if detail = 3 then some (indent2 (collapse doc) ++ ['\n'])
  else
    match pickBlock (splitBlocks (stripDividers doc)) with
    | none => none
    | some block =>
      if detail = 2 then some (indent2 block)
      else
        some (pySlice block (truncIndex block w) ++
          (if (block.length : Int) > truncIndex block w then "...".toList else []))

/-- Python `name.ljust(size)`. -/
def ljust (s : Chars) (size : Nat) : Chars := s ++ List.replicate (size - s.length) ' '

/-- `max(map(len, names))` over a nonempty list (as a fold from 0). -/
def maxLen (names : List Chars) : Nat := names.foldl (fun acc s => Nat.max acc s.length) 0

/-- Structural helper for `chunksP`: the fuel is an upper bound on the list
length, so the middle branch is never taken in actual use. -/
def chunksGo {α : Type} (n : Nat) : Nat → List α → List (List α)
  | _, [] => []
  | 0, x :: xs => [x :: xs]
  | fuel + 1, x :: xs => (x :: xs.take n) :: chunksGo n fuel (xs.drop n)

/-- Grouping into rows of `n + 1` consecutive elements, in order
(`names[p:p+n] for p in range(0, len(names), n)` with step `n + 1 ≥ 1`). -/
def chunksP {α : Type} (n : Nat) (l : List α) : List (List α) := chunksGo n l.length l

/-- The nested `fold(names, width)` of `inspect`, applied to the name column
of each entry.  `none` models an exception: `max` on an empty list, or
`range(0, len, 0)` when `width // size == 0`.  When `width // size < 0`,
Python's `range(0, len, negative)` is empty and `fold` returns `''`. -/
def fold (names : List Chars) (w : Int) : Option Chars :=
  if names = [] then none
  else
    let size := maxLen names + 2
    let k : Int := Int.fdiv w (size : Int)
    if k = 0 then none
    else if k < 0 then some []
    else
      some (joinLines ((chunksP (k.toNat - 1) (names.map (fun s => ljust s size))).map
        (fun row => row.flatten)))

/-- One member of the inspected object, as seen by the classification loop:
its name, the three capability probes (`hasattr(member, '__package__')`,
`'__base__'`, `'__call__'`), its runtime type name, and its `str(...)` and
`repr(...)` renderings. -/
structure Member where
  name : Chars
  hasPackage : Bool
  hasBase : Bool
  hasCall : Bool
  typeName : Chars
  strValue : Chars
  reprValue : Chars
deriving DecidableEq

/-- The four category lists built by the member loop of `inspect`. -/
structure Classified where
  modules : List Member
  types : List Member
  callables : List Member
  datas : List Member
deriving DecidableEq

/-- The member-classification loop of `inspect`: skip reserved names
(`name[0] == '_'` in the source; the test is a parameter here, matching the
spec's visibility predicate), then probe `__package__`, `__base__`,
`__call__` in that order, first match winning, with data as the default. -/
def classify (reserved : Chars → Bool) : List Member → Classified
  | [] => ⟨[], [], [], []⟩
  | m :: ms =>
    let c := classify reserved ms
    if reserved m.name then c
    else if m.hasPackage then ⟨m :: c.modules, c.types, c.callables, c.datas⟩
    else if m.hasBase then ⟨c.modules, m :: c.types, c.callables, c.datas⟩
    else if m.hasCall then ⟨c.modules, c.types, m :: c.callables, c.datas⟩
    else ⟨c.modules, c.types, c.callables, m :: c.datas⟩

/-- The reserved-name test hard-coded in the source: `name[0] == '_'`
(member names produced by `getmembers` are nonempty identifiers). -/
def underscoreReserved : Chars → Bool
  | [] => false
  | c :: _ => c = '_'

/-- Python `pvalue.replace('\n', ' ')`. -/
def nlToSpace (s : Chars) : Chars := s.map (fun c => if c = '\n' then ' ' else c)

/-- The data-member value rendering of `inspect`:
`pvalue = str(member)`; opaque values (leading `'<'`) are cut at their first
token plus `'...>'`, other values have newlines collapsed to spaces and are
stripped; values longer than the remaining width are sliced with an ellipsis
spliced in before the final character.  `none` models the `IndexError` of
`pvalue[0]` on an empty `str(member)` or of `pvalue[-1]` on an empty
stripped value. -/
def dataValue (w : Int) (m : Member) : Option Chars :=
  let pwidth : Int := w - ((m.name.length + m.typeName.length : Nat) : Int) - 4
  match m.strValue with
  | [] => none
  | c :: rest =>
    let pv := if c = '<' then ((c :: rest).takeWhile (fun a => !a.isWhitespace)) ++ "...>".toList
              else pyStrip (nlToSpace (c :: rest))
    if (pv.length : Int) > pwidth then
      match pv.getLast? with
      | none => none
      | some last => some (pySlice pv pwidth ++ "...".toList ++ [last])
    else some pv

/-- The stored data entry, rendered in detail mode as
`f"{name}:{type} = {value}"`, where for `str` members the computed `pvalue`
is discarded in favour of `repr(member)`. -/
def dataEntry (w : Int) (m : Member) : Option Chars :=
  match dataValue w m with
  | none => none
  | some pv =>
    some (m.name ++ ':' :: m.typeName ++ " = ".toList ++
      (if m.typeName = "str".toList then m.reprValue else pv))

/-- `s` contains two consecutive newlines. -/
def hasNN : Chars → Bool
  | [] => false
  | [_] => false
  | a :: b :: r => (a = '\n' && b = '\n') || hasNN (b :: r)

/-- `s` contains three consecutive newlines. -/
def hasNNN : Chars → Bool
  | [] => false
  | [_] => false
  | [_, _] => false
  | a :: b :: c :: r => (a = '\n' && b = '\n' && c = '\n') || hasNNN (b :: c :: r)

/-! ## Closed evaluations settling claims against the code -/

/-- C2 (code bug): an object whose docstring consists solely of a divider
line (`'---'`) makes report generation abort: the header's role line calls
`getdetail(object, 2, width - 8)`, divider removal empties the only line,
and `''.split()[0]` raises `IndexError` — contradicting the spec's "No
condition aborts report generation". -/
theorem C2_role_crash : getdetail (some ("---".toList)) 2 88 = none := by decide

/-- C3 counterexample: at level 3 on the one-line docstring `"a"` the code
returns `"a\n"` — a trailing line-break is added and the (first) line is not
indented — not the claimed `"  a"` (every line indented, nothing added). -/
theorem C3_counterexample :
    getdetail (some ("a".toList)) 3 0 = some ("a\n".toList) ∧
    "a\n".toList ≠ "  a".toList := by decide

/-- C4 counterexample: at level 3 the divider line `'---'` is *not* removed
(it survives into the output), and at level 2 the divider line of
`"ab\n---\ncd"` is emptied rather than removed, so it creates a block
boundary and the result is `"ab"` instead of the claimed `"ab\n  cd"`. -/
theorem C4_counterexample :
    getdetail (some ("---\nabc".toList)) 3 1 = some ("---\n  abc\n".toList) ∧
    getdetail (some ("ab\n---\ncd".toList)) 2 9 = some ("ab".toList) ∧
    "ab".toList ≠ "ab\n  cd".toList := by decide

/-- C5 counterexample: with docstring `"f(x)\n\ng(y)\n\nok"` the scan
discards *two* leading blocks (both have `'('` in their first token) and
returns `"ok"`, not the claimed behaviour of discarding only the first
block (which would return `"g(y)"`). -/
theorem C5_counterexample :
    getdetail (some ("f(x)\n\ng(y)\n\nok".toList)) 2 50 = some ("ok".toList) ∧
    "ok".toList ≠ "g(y)".toList := by decide

/-- C7 counterexample: with a single label `"abc"` and width 1 the cell size
is 5, `width // size == 0`, and `range(0, 1, 0)` raises `ValueError` — there
is no flooring of the column count to 1. -/
theorem C7_counterexample : fold ["abc".toList] 1 = none := by decide

/-- C8 counterexample: width 0 is not clamped to 1: on docstring `"ab"` at
level 1 the code returns `"..."` for width 0 but `"a..."` for width 1. -/
theorem C8_counterexample :
    getdetail (some ("ab".toList)) 1 0 = some ("...".toList) ∧
    getdetail (some ("ab".toList)) 1 1 = some ("a...".toList) ∧
    "...".toList ≠ "a...".toList := by decide

/-- C9 counterexample: level 3 is not idempotent: on `"a\n\n\n\nb"` the
first pass collapses the four line-breaks to two and outputs
`"a\n  \n  b\n"`; stripping the indentation and re-applying collapses once
more, giving `"a\n  b\n"` — a different result. -/
theorem C9_counterexample :
    getdetail (some ("a\n\n\n\nb".toList)) 3 5 = some ("a\n  \n  b\n".toList) ∧
    stripIndent ("a\n  \n  b\n".toList) = "a\n\nb\n".toList ∧
    getdetail (some ("a\n\nb\n".toList)) 3 5 = some ("a\n  b\n".toList) ∧
    "a\n  b\n".toList ≠ "a\n  \n  b\n".toList := by decide

/-- C10 counterexample: a `str` data member whose value is the empty string
crashes the member loop (`pvalue[0]` raises `IndexError` on `str(member) ==
''`), so no entry — let alone the full quoted repr — is rendered. -/
theorem C10_counterexample :
    dataEntry 96 ⟨"s".toList, false, false, false, "str".toList, [], "''".toList⟩ = none := by
  decide

/-! ## C1: the classification partitions the filtered member set -/

theorem classify_modules_eq (res : Chars → Bool) (ms : List Member) :
    (classify res ms).modules = ms.filter (fun m => !res m.name && m.hasPackage) := by
  induction ms with
  | nil => rfl
  | cons m ms ih =>
    simp only [classify, List.filter_cons]
    cases hr : res m.name <;> cases hp : m.hasPackage <;>
      cases hb : m.hasBase <;> cases hc : m.hasCall <;>
        simp [hr, hp, hb, hc, ih]

theorem classify_types_eq (res : Chars → Bool) (ms : List Member) :
    (classify res ms).types =
      ms.filter (fun m => !res m.name && !m.hasPackage && m.hasBase) := by
  induction ms with
  | nil => rfl
  | cons m ms ih =>
    simp only [classify, List.filter_cons]
    cases hr : res m.name <;> cases hp : m.hasPackage <;>
      cases hb : m.hasBase <;> cases hc : m.hasCall <;>
        simp [hr, hp, hb, hc, ih]

theorem classify_callables_eq (res : Chars → Bool) (ms : List Member) :
    (classify res ms).callables =
      ms.filter (fun m => !res m.name && !m.hasPackage && !m.hasBase && m.hasCall) := by
  induction ms with
  | nil => rfl
  | cons m ms ih =>
    simp only [classify, List.filter_cons]
    cases hr : res m.name <;> cases hp : m.hasPackage <;>
      cases hb : m.hasBase <;> cases hc : m.hasCall <;>
        simp [hr, hp, hb, hc, ih]

theorem classify_datas_eq (res : Chars → Bool) (ms : List Member) :
    (classify res ms).datas =
      ms.filter (fun m => !res m.name && !m.hasPackage && !m.hasBase && !m.hasCall) := by
  induction ms with
  | nil => rfl
  | cons m ms ih =>
    simp only [classify, List.filter_cons]
    cases hr : res m.name <;> cases hp : m.hasPackage <;>
      cases hb : m.hasBase <;> cases hc : m.hasCall <;>
        simp [hr, hp, hb, hc, ih]

theorem classify_union_perm (res : Chars → Bool) (ms : List Member) :
    List.Perm
      ((classify res ms).modules ++ (classify res ms).types ++
        (classify res ms).callables ++ (classify res ms).datas)
      (ms.filter (fun m => !res m.name)) := by
  rw [classify_modules_eq, classify_types_eq, classify_callables_eq, classify_datas_eq]
  induction ms with
  | nil => rfl
  | cons m ms ih =>
    simp only [List.filter_cons]
    cases hr : res m.name <;> cases hp : m.hasPackage <;> cases hb : m.hasBase <;>
      cases hc : m.hasCall <;>
        simp only [hr, hp, hb, hc, Bool.not_false, Bool.not_true, Bool.false_and,
          Bool.true_and, Bool.and_false, Bool.and_true, Bool.and_self, reduceIte] <;>
        first
          | exact ih
          | exact ih.cons m
          | exact List.perm_middle.trans (ih.cons m)
          | exact (List.perm_middle.append_right _).trans (ih.cons m)
          | exact ((List.perm_middle.append_right _).append_right _).trans (ih.cons m)

theorem disjoint_filter_bool {α : Type} {p q : α → Bool} (l : List α)
    (h : ∀ a, !(p a && q a)) : List.Disjoint (l.filter p) (l.filter q) := by
  intro a ha hb
  have hpa := List.of_mem_filter ha
  have hqa := List.of_mem_filter hb
  have hx := h a
  rw [hpa, hqa] at hx
  simp at hx

/-- C1: for every member list and reserved-name test, the classification
loop places every non-reserved member in exactly one of the four lists,
probing `__package__`, `__base__`, `__call__` in this order with first match
winning (the filter characterizations); the four lists are pairwise disjoint
and their concatenation is a permutation of the non-reserved member set, and
every reserved-name member is excluded from all four lists. -/
theorem C1_partition (reserved : Chars → Bool) (ms : List Member) :
    ((classify reserved ms).modules =
        ms.filter (fun m => !reserved m.name && m.hasPackage) ∧
      (classify reserved ms).types =
        ms.filter (fun m => !reserved m.name && !m.hasPackage && m.hasBase) ∧
      (classify reserved ms).callables =
        ms.filter (fun m => !reserved m.name && !m.hasPackage && !m.hasBase && m.hasCall) ∧
      (classify reserved ms).datas =
        ms.filter (fun m => !reserved m.name && !m.hasPackage && !m.hasBase && !m.hasCall)) ∧
    List.Perm
      ((classify reserved ms).modules ++ (classify reserved ms).types ++
        (classify reserved ms).callables ++ (classify reserved ms).datas)
      (ms.filter (fun m => !reserved m.name)) ∧
    (List.Disjoint (classify reserved ms).modules (classify reserved ms).types ∧
      List.Disjoint (classify reserved ms).modules (classify reserved ms).callables ∧
      List.Disjoint (classify reserved ms).modules (classify reserved ms).datas ∧
      List.Disjoint (classify reserved ms).types (classify reserved ms).callables ∧
      List.Disjoint (classify reserved ms).types (classify reserved ms).datas ∧
      List.Disjoint (classify reserved ms).callables (classify reserved ms).datas) ∧
    ∀ m : Member, reserved m.name = true →
      m ∉ (classify reserved ms).modules ∧ m ∉ (classify reserved ms).types ∧
      m ∉ (classify reserved ms).callables ∧ m ∉ (classify reserved ms).datas := by
  have e1 := classify_modules_eq reserved ms
  have e2 := classify_types_eq reserved ms
  have e3 := classify_callables_eq reserved ms
  have e4 := classify_datas_eq reserved ms
  refine ⟨⟨e1, e2, e3, e4⟩, classify_union_perm reserved ms, ⟨?_, ?_, ?_, ?_, ?_, ?_⟩, ?_⟩
  · rw [e1, e2]
    exact disjoint_filter_bool ms (fun a => by
      cases hr : reserved a.name <;> cases hp : a.hasPackage <;> cases hb : a.hasBase <;>
        simp [hr, hp, hb])
  · rw [e1, e3]
    exact disjoint_filter_bool ms (fun a => by
      cases hr : reserved a.name <;> cases hp : a.hasPackage <;> cases hc : a.hasCall <;>
        simp [hr, hp, hc])
  · rw [e1, e4]
    exact disjoint_filter_bool ms (fun a => by
      cases hr : reserved a.name <;> cases hp : a.hasPackage <;>
        simp [hr, hp])
  · rw [e2, e3]
    exact disjoint_filter_bool ms (fun a => by
      cases hr : reserved a.name <;> cases hp : a.hasPackage <;> cases hb : a.hasBase <;>
        cases hc : a.hasCall <;> simp [hr, hp, hb, hc])
  · rw [e2, e4]
    exact disjoint_filter_bool ms (fun a => by
      cases hr : reserved a.name <;> cases hp : a.hasPackage <;> cases hb : a.hasBase <;>
        simp [hr, hp, hb])
  · rw [e3, e4]
    exact disjoint_filter_bool ms (fun a => by
      cases hr : reserved a.name <;> cases hp : a.hasPackage <;> cases hb : a.hasBase <;>
        cases hc : a.hasCall <;> simp [hr, hp, hb, hc])
  · intro m hm
    refine ⟨?_, ?_, ?_, ?_⟩
    · rw [e1]; intro hmem
      have hx := List.of_mem_filter hmem
      simp [hm] at hx
    · rw [e2]; intro hmem
      have hx := List.of_mem_filter hmem
      simp [hm] at hx
    · rw [e3]; intro hmem
      have hx := List.of_mem_filter hmem
      simp [hm] at hx
    · rw [e4]; intro hmem
      have hx := List.of_mem_filter hmem
      simp [hm] at hx

/-! ## C6 and C8: the level-0/1 truncation path -/

theorem pySlice_length_of_nonneg (s : Chars) (i : Int) (h : 0 ≤ i) :
    (pySlice s i).length = min i.toNat s.length := by
  rw [pySlice, if_neg (not_lt.mpr h)]
  exact List.length_take _ _

theorem truncIndex_nonneg (block : Chars) (w : Int) (hw : 0 ≤ w) :
    0 ≤ truncIndex block w := by
  unfold truncIndex
  split
  · rename_i hc
    rw [pyFind, if_pos hc]
    exact le_min hw (Int.natCast_nonneg _)
  · exact hw

theorem truncIndex_le (block : Chars) (w : Int) : truncIndex block w ≤ w := by
  unfold truncIndex
  split
  · exact min_le_left _ _
  · exact le_refl w

theorem pickBlock_some_firstWord (bs : List Chars) (b : Chars) (h : pickBlock bs = some b) :
    ∃ wd, firstWord b = some wd := by
  induction bs generalizing b with
  | nil => simp [pickBlock] at h
  | cons x xs ih =>
    cases xs with
    | nil =>
      simp only [pickBlock] at h
      cases hf : firstWord x with
      | none => rw [hf] at h; exact absurd h (by simp)
      | some wd =>
        simp only [hf] at h
        injection h with h
        exact ⟨wd, h ▸ hf⟩
    | cons y ys =>
      simp only [pickBlock] at h
      cases hf : firstWord x with
      | none => simp only [hf] at h; exact absurd h (by simp)
      | some wd =>
        simp only [hf] at h
        by_cases hc : wd.contains '(' = true
        · rw [if_pos hc] at h
          exact ih b h
        · rw [if_neg hc] at h
          injection h with h
          exact ⟨wd, h ▸ hf⟩

theorem firstWord_ne_nil {b wd : Chars} (h : firstWord b = some wd) : b ≠ [] := by
  intro hb
  subst hb
  simp [firstWord] at h

/-- C6: at detail levels 0 and 1 with positive width, `getdetail` returns the
selected block sliced to `truncIndex` = `min(width, offset of first newline)`
for a multi-line block and `width` otherwise, appends the `'...'` marker
exactly when the block is longer than the slice, and the output length never
exceeds `width + 3`. -/
theorem C6_truncation (doc? : Option Chars) (detail : Nat) (w : Int) (block : Chars)
    (hd : detail = 0 ∨ detail = 1) (hw : 0 < w)
    (hb : pickBlock (splitBlocks (stripDividers (docText doc?))) = some block) :
    getdetail doc? detail w =
      some (pySlice block (truncIndex block w) ++
        (if (block.length : Int) > truncIndex block w then "...".toList else [])) ∧
    ((block.length : Int) > truncIndex block w ↔
      (pySlice block (truncIndex block w)).length < block.length) ∧
    (((pySlice block (truncIndex block w) ++
        (if (block.length : Int) > truncIndex block w then "...".toList else [])).length : Int)
      ≤ w + 3) := by
  have h3 : detail ≠ 3 := by rcases hd with h | h <;> simp [h]
  have h2 : detail ≠ 2 := by rcases hd with h | h <;> simp [h]
  have hi0 : 0 ≤ truncIndex block w := truncIndex_nonneg block w (le_of_lt hw)
  have hle := truncIndex_le block w
  refine ⟨?_, ?_, ?_⟩
  · simp only [getdetail]
    rw [if_neg h3]
    simp only [hb]
    rw [if_neg h2]
  · rw [pySlice_length_of_nonneg _ _ hi0]
    omega
  · rw [List.length_append, pySlice_length_of_nonneg _ _ hi0]
    have hel : ("...".toList).length = 3 := rfl
    split <;> simp only [hel, List.length_nil] <;> omega

/-- C6 witness: the spec's own example — docstring
`"Compute sum.\n\nArgs: x, y"`, level 1, width 30 — returns
`"Compute sum."` unmodified, with no ellipsis. -/
theorem C6_truncation_witness :
    ((0 : Int) < 30 ∧
      pickBlock (splitBlocks (stripDividers
        (docText (some ("Compute sum.\n\nArgs: x, y".toList))))) =
        some ("Compute sum.".toList)) ∧
    getdetail (some ("Compute sum.\n\nArgs: x, y".toList)) 1 30 =
      some ("Compute sum.".toList) := by
  refine ⟨⟨by decide, by decide⟩, ?_⟩
  have h := C6_truncation (some ("Compute sum.\n\nArgs: x, y".toList)) 1 30
    ("Compute sum.".toList) (Or.inr rfl) (by decide) (by decide)
  rw [h.1]
  decide

/-- C8 (amended): the code never clamps a non-positive width: at levels 0/1
the width flows directly into the Python slice, so the output is
`block[:width] + '...'` — for width 0 just the ellipsis, for negative widths
a slice counted from the block's end — not the width-1 behaviour. -/
theorem C8_no_clamping (doc? : Option Chars) (detail : Nat) (w : Int) (block : Chars)
    (hd : detail = 0 ∨ detail = 1) (hw : w ≤ 0)
    (hb : pickBlock (splitBlocks (stripDividers (docText doc?))) = some block) :
    getdetail doc? detail w = some (pySlice block w ++ "...".toList) := by
  have h3 : detail ≠ 3 := by rcases hd with h | h <;> simp [h]
  have h2 : detail ≠ 2 := by rcases hd with h | h <;> simp [h]
  have hti : truncIndex block w = w := by
    unfold truncIndex
    split
    · rename_i hc
      rw [pyFind, if_pos hc]
      exact min_eq_left (le_trans hw (Int.natCast_nonneg _))
    · rfl
  obtain ⟨wd, hwd⟩ := pickBlock_some_firstWord _ _ hb
  have hbn : block ≠ [] := firstWord_ne_nil hwd
  have hlen : (block.length : Int) > truncIndex block w := by
    have hpos : 0 < block.length := List.length_pos.mpr hbn
    omega
  simp only [getdetail]
  rw [if_neg h3]
  simp only [hb]
  rw [if_neg h2, if_pos hlen, hti]

/-- C8 witness: docstring `"ab"`, level 1, width 0 — the output is exactly
`'...'`, i.e. `"ab"[:0] + '...'`, showing the unclamped width in action. -/
theorem C8_no_clamping_witness :
    ((0 : Int) ≤ 0 ∧
      pickBlock (splitBlocks (stripDividers (docText (some ("ab".toList))))) =
        some ("ab".toList)) ∧
    getdetail (some ("ab".toList)) 1 0 = some ("...".toList) := by
  refine ⟨⟨by decide, by decide⟩, ?_⟩
  have h := C8_no_clamping (some ("ab".toList)) 1 0 ("ab".toList)
    (Or.inr rfl) (by decide) (by decide)
  rw [h]
  decide

/-! ## C5: the signature-block scan -/

/-- C5 (amended): the scan repeatedly discards *leading* blocks whose first
token contains `'('` — a returned block is preceded only by such blocks, and
is itself either free of `'('` in its first token or the last block (the
Python loop variable keeps the last block when the loop runs out). -/
theorem C5_block_scan (bs : List Chars) (b : Chars) (h : pickBlock bs = some b) :
    ∃ pre post, bs = pre ++ b :: post ∧
      (∀ x ∈ pre, ∃ wd, firstWord x = some wd ∧ wd.contains '(' = true) ∧
      ∃ wd, firstWord b = some wd ∧ (wd.contains '(' = false ∨ post = []) := by
  induction bs generalizing b with
  | nil => simp [pickBlock] at h
  | cons x xs ih =>
    cases xs with
    | nil =>
      simp only [pickBlock] at h
      cases hf : firstWord x with
      | none => simp only [hf] at h; exact absurd h (by simp)
      | some wd =>
        simp only [hf] at h
        injection h with h
        subst h
        exact ⟨[], [], rfl, by simp, ⟨wd, hf, Or.inr rfl⟩⟩
    | cons y ys =>
      simp only [pickBlock] at h
      cases hf : firstWord x with
      | none => simp only [hf] at h; exact absurd h (by simp)
      | some wd =>
        simp only [hf] at h
        by_cases hc : wd.contains '(' = true
        · rw [if_pos hc] at h
          obtain ⟨pre, post, hsplit, hpre, hsel⟩ := ih b h
          refine ⟨x :: pre, post, by simp [hsplit], ?_, hsel⟩
          intro z hz
          rcases List.mem_cons.mp hz with hz | hz
          · subst hz
            exact ⟨wd, hf, hc⟩
          · exact hpre z hz
        · rw [if_neg hc] at h
          injection h with h
          subst h
          refine ⟨[], y :: ys, rfl, by simp, ⟨wd, hf, Or.inl ?_⟩⟩
          revert hc
          cases wd.contains '(' <;> simp

/-- C5 witness: blocks `["f(x)", "ok"]` — the selected block `"ok"` is
preceded only by signature-like blocks and its own first token has no `'('`. -/
theorem C5_block_scan_witness :
    pickBlock ["f(x)".toList, "ok".toList] = some ("ok".toList) ∧
    ∃ pre post, ["f(x)".toList, "ok".toList] = pre ++ ("ok".toList) :: post ∧
      (∀ x ∈ pre, ∃ wd, firstWord x = some wd ∧ wd.contains '(' = true) ∧
      ∃ wd, firstWord ("ok".toList) = some wd ∧ (wd.contains '(' = false ∨ post = []) :=
  ⟨by decide, C5_block_scan _ _ (by decide)⟩

/-! ## C7: the column folder -/

theorem chunksGo_flatten {α : Type} (n : Nat) :
    ∀ (fuel : Nat) (l : List α), l.length ≤ fuel → (chunksGo n fuel l).flatten = l := by
  intro fuel
  induction fuel with
  | zero =>
    intro l hl
    cases l with
    | nil => rfl
    | cons x xs => simp at hl
  | succ fuel ih =>
    intro l hl
    cases l with
    | nil => rfl
    | cons x xs =>
      simp only [chunksGo, List.flatten_cons]
      rw [ih (xs.drop n) (by simp only [List.length_drop]; simp at hl; omega)]
      simp [List.take_append_drop]

theorem chunksP_flatten {α : Type} (n : Nat) (l : List α) :
    (chunksP n l).flatten = l :=
  chunksGo_flatten n l.length l (le_refl _)

theorem chunksGo_length {α : Type} (n : Nat) :
    ∀ (fuel : Nat) (l : List α), l.length ≤ fuel →
      (chunksGo n fuel l).length = (l.length + n) / (n + 1) := by
  intro fuel
  induction fuel with
  | zero =>
    intro l hl
    cases l with
    | nil =>
      simp only [chunksGo, List.length_nil, Nat.zero_add]
      rw [Nat.div_eq_of_lt (Nat.lt_succ_self n)]
    | cons x xs => simp at hl
  | succ fuel ih =>
    intro l hl
    cases l with
    | nil =>
      simp only [chunksGo, List.length_nil, Nat.zero_add]
      rw [Nat.div_eq_of_lt (Nat.lt_succ_self n)]
    | cons x xs =>
      simp only [chunksGo, List.length_cons]
      rw [ih (xs.drop n) (by simp only [List.length_drop]; simp at hl; omega)]
      simp only [List.length_drop]
      rcases le_or_lt n xs.length with hle | hlt
      · rw [Nat.sub_add_cancel hle]
        have he : xs.length + 1 + n = xs.length + (n + 1) := by omega
        rw [he, Nat.add_div_right _ (Nat.succ_pos n)]
      · rw [Nat.sub_eq_zero_of_le (le_of_lt hlt), Nat.zero_add,
          Nat.div_eq_of_lt (Nat.lt_succ_self n)]
        have h1 : (xs.length + 1 + n) / (n + 1) = 1 :=
          Nat.div_eq_of_lt_le (by omega) (by omega)
        omega

theorem chunksP_length {α : Type} (n : Nat) (l : List α) :
    (chunksP n l).length = (l.length + n) / (n + 1) :=
  chunksGo_length n l.length l (le_refl _)

/-- C7 (amended): when `width // cellSize ≥ 1` (there is no flooring to 1 in
the code — `width // cellSize == 0` raises instead, see the counterexample),
`fold` left-justifies every label to `cellSize = longest + 2`, groups them
into rows of that column count, and joins the rows with line breaks; the
rows' concatenation is exactly the padded labels in the original order, the
row count is `ceil(count / columns)`, and each padded cell is the label
followed by spaces. -/
theorem C7_layout (names : List Chars) (w : Int)
    (hne : names ≠ []) (hk : 1 ≤ Int.fdiv w ((maxLen names + 2 : Nat) : Int)) :
    fold names w =
      some (joinLines ((chunksP ((Int.fdiv w ((maxLen names + 2 : Nat) : Int)).toNat - 1)
        (names.map (fun s => ljust s (maxLen names + 2)))).map (fun row => row.flatten))) ∧
    (chunksP ((Int.fdiv w ((maxLen names + 2 : Nat) : Int)).toNat - 1)
        (names.map (fun s => ljust s (maxLen names + 2)))).flatten =
      names.map (fun s => ljust s (maxLen names + 2)) ∧
    (chunksP ((Int.fdiv w ((maxLen names + 2 : Nat) : Int)).toNat - 1)
        (names.map (fun s => ljust s (maxLen names + 2)))).length =
      (names.length + (Int.fdiv w ((maxLen names + 2 : Nat) : Int)).toNat - 1) /
        (Int.fdiv w ((maxLen names + 2 : Nat) : Int)).toNat ∧
    ∀ s ∈ names, ljust s (maxLen names + 2) =
      s ++ List.replicate ((maxLen names + 2) - s.length) ' ' := by
  have hk1 : 1 ≤ (Int.fdiv w ((maxLen names + 2 : Nat) : Int)).toNat := by omega
  have hk0 : ¬ (Int.fdiv w ((maxLen names + 2 : Nat) : Int) = 0) := by omega
  have hkneg : ¬ (Int.fdiv w ((maxLen names + 2 : Nat) : Int) < 0) := by omega
  refine ⟨?_, chunksP_flatten _ _, ?_, fun s _ => rfl⟩
  · simp only [fold]
    rw [if_neg hne, if_neg hk0, if_neg hkneg]
  · rw [chunksP_length, List.length_map]
    have h1 : (Int.fdiv w ((maxLen names + 2 : Nat) : Int)).toNat - 1 + 1 =
        (Int.fdiv w ((maxLen names + 2 : Nat) : Int)).toNat := by omega
    have h2 : names.length + ((Int.fdiv w ((maxLen names + 2 : Nat) : Int)).toNat - 1) =
        names.length + (Int.fdiv w ((maxLen names + 2 : Nat) : Int)).toNat - 1 := by omega
    rw [h1, h2]

/-- C7 witness: the spec's own example — labels `["alpha", "b", "gamma"]`,
width 10 — cell size 7, one column, three rows. -/
theorem C7_layout_witness :
    (["alpha".toList, "b".toList, "gamma".toList] ≠ ([] : List Chars) ∧
      1 ≤ Int.fdiv 10 ((maxLen ["alpha".toList, "b".toList, "gamma".toList] + 2 : Nat) : Int)) ∧
    fold ["alpha".toList, "b".toList, "gamma".toList] 10 =
      some ("alpha  \nb      \ngamma  ".toList) := by
  refine ⟨⟨by decide, by decide⟩, ?_⟩
  have h := C7_layout ["alpha".toList, "b".toList, "gamma".toList] 10 (by decide) (by decide)
  rw [h.1]
  decide

/-! ## C10: string data members bypass the value truncations -/

/-- C10 (amended): for every `str` data member on which the value
computation does not fault, the stored entry is `name:str = repr(member)` —
the full quoted repr, independent of the width: both special-case
truncations are applied only to the `pvalue` that is then discarded for
strings (a long string member can therefore exceed the remaining width). -/
theorem C10_str_repr (w : Int) (m : Member) (e : Chars)
    (hm : m.typeName = "str".toList) (he : dataEntry w m = some e) :
    e = m.name ++ ':' :: m.typeName ++ " = ".toList ++ m.reprValue := by
  unfold dataEntry at he
  cases hv : dataValue w m with
  | none =>
    rw [hv] at he
    exact Option.noConfusion he
  | some pv =>
    rw [hv] at he
    injection he with he
    rw [← he, if_pos hm]

/-- C10 witness: the member `s : str` with value `"abcdefgh"` at width 5 —
the entry shows the whole `repr`, far beyond the remaining width. -/
theorem C10_str_repr_witness :
    ((⟨"s".toList, false, false, false, "str".toList, "abcdefgh".toList,
        "'abcdefgh'".toList⟩ : Member).typeName = "str".toList ∧
      dataEntry 5 ⟨"s".toList, false, false, false, "str".toList, "abcdefgh".toList,
        "'abcdefgh'".toList⟩ = some ("s:str = 'abcdefgh'".toList)) ∧
    "s:str = 'abcdefgh'".toList =
      "s".toList ++ ':' :: "str".toList ++ " = ".toList ++ "'abcdefgh'".toList := by
  refine ⟨⟨rfl, by decide⟩, ?_⟩
  exact C10_str_repr 5
    ⟨"s".toList, false, false, false, "str".toList, "abcdefgh".toList, "'abcdefgh'".toList⟩
    ("s:str = 'abcdefgh'".toList) rfl (by decide)

/-! ## C3 and C4: level-3 formatting and divider removal -/

theorem splitLines_ne_nil (s : Chars) : splitLines s ≠ [] := by
  cases s with
  | nil => simp [splitLines]
  | cons c r =>
    by_cases hc : c = '\n'
    · simp [splitLines, hc]
    · simp only [splitLines, if_neg hc]
      cases splitLines r <;> simp

theorem indent2_eq_joinWith (s : Chars) :
    indent2 s = joinWith ('\n' :: ' ' :: ' ' :: []) (splitLines s) := by
  induction s with
  | nil => rfl
  | cons c r ih =>
    by_cases hc : c = '\n'
    · subst hc
      simp only [indent2, if_pos rfl, splitLines]
      cases hsr : splitLines r with
      | nil => exact absurd hsr (splitLines_ne_nil r)
      | cons l ls =>
        rw [ih, hsr]
        rfl
    · simp only [indent2, if_neg hc, splitLines]
      cases hsr : splitLines r with
      | nil => exact absurd hsr (splitLines_ne_nil r)
      | cons l ls =>
        rw [ih, hsr]
        cases ls with
        | nil => rfl
        | cons l2 ls2 => rfl

/-- C3 (amended): at level 3 the code returns the trimmed text (or the
placeholder) with each non-overlapping double line-break collapsed once in a
single left-to-right pass, the resulting lines joined with `"\n  "` — i.e.
every line *after the first* indented by two spaces — and one trailing
line-break appended; nothing is truncated. -/
theorem C3_level3 (d : Chars) (w : Int) :
    getdetail (some d) 3 w =
      some (joinWith ('\n' :: ' ' :: ' ' :: [])
        (splitLines (collapse (docText (some d)))) ++ ['\n']) := by
  simp only [getdetail]
  rw [if_pos trivial, indent2_eq_joinWith]

theorem splitLines_no_newline (s : Chars) : ∀ l ∈ splitLines s, '\n' ∉ l := by
  induction s with
  | nil =>
    intro l hl
    simp [splitLines] at hl
    subst hl
    simp
  | cons c r ih =>
    intro l hl
    by_cases hc : c = '\n'
    · simp only [splitLines, if_pos hc] at hl
      rcases List.mem_cons.mp hl with h | h
      · subst h; simp
      · exact ih l h
    · cases hsr : splitLines r with
      | nil => exact absurd hsr (splitLines_ne_nil r)
      | cons x xs =>
        simp only [splitLines, if_neg hc, hsr] at hl
        rcases List.mem_cons.mp hl with h | h
        · subst h
          intro hmem
          rcases List.mem_cons.mp hmem with h2 | h2
          · exact hc h2.symm
          · exact ih x (by rw [hsr]; exact List.mem_cons_self x xs) h2
        · exact ih l (by rw [hsr]; exact List.mem_cons.mpr (Or.inr h))

theorem splitLines_of_no_newline (x : Chars) (h : '\n' ∉ x) : splitLines x = [x] := by
  induction x with
  | nil => rfl
  | cons c r ih =>
    have hc : c ≠ '\n' := fun hcc => h (hcc ▸ List.mem_cons_self c r)
    have hr : '\n' ∉ r := fun hm => h (List.mem_cons.mpr (Or.inr hm))
    simp only [splitLines, if_neg hc, ih hr]

theorem splitLines_append_newline (x t : Chars) (h : '\n' ∉ x) :
    splitLines (x ++ '\n' :: t) = x :: splitLines t := by
  induction x with
  | nil => simp [splitLines]
  | cons c r ih =>
    have hc : c ≠ '\n' := fun hcc => h (hcc ▸ List.mem_cons_self c r)
    have hr : '\n' ∉ r := fun hm => h (List.mem_cons.mpr (Or.inr hm))
    simp only [List.cons_append, splitLines, if_neg hc, List.append_eq, ih hr]

theorem splitLines_joinLines (xs : List Chars) (hne : xs ≠ [])
    (hnl : ∀ l ∈ xs, '\n' ∉ l) : splitLines (joinLines xs) = xs := by
  induction xs with
  | nil => exact absurd rfl hne
  | cons x xs ih =>
    cases xs with
    | nil => exact splitLines_of_no_newline x (hnl x (by simp))
    | cons y ys =>
      have hj : joinLines (x :: y :: ys) = x ++ '\n' :: joinLines (y :: ys) := by
        show x ++ ['\n'] ++ joinWith ['\n'] (y :: ys) = _
        rw [List.append_assoc]
        rfl
      rw [hj, splitLines_append_newline x _ (hnl x (by simp)),
        ih (by simp) (fun l hl => hnl l (List.mem_cons.mpr (Or.inr hl)))]

/-- C4 (amended): at detail levels 0–2, before block splitting, each line
consisting solely of 3+ characters drawn from `-`/`=` has its *content*
removed but the line itself remains as an empty line (which can introduce a
new block boundary): the line structure is preserved, every divider line
becomes empty, and no divider line survives.  At level 3 no divider removal
occurs at all — see the counterexample. -/
theorem C4_divider_lines (d : Chars) :
    splitLines (stripDividers d) =
      (splitLines d).map (fun l => if isDivider l then [] else l) ∧
    (splitLines (stripDividers d)).length = (splitLines d).length ∧
    ∀ l ∈ splitLines (stripDividers d), isDivider l = false := by
  have h1 : splitLines (stripDividers d) =
      (splitLines d).map (fun l => if isDivider l then [] else l) := by
    unfold stripDividers
    apply splitLines_joinLines
    · intro hmap
      exact splitLines_ne_nil d (List.map_eq_nil_iff.mp hmap)
    · intro l hl
      obtain ⟨l0, hl0, rfl⟩ := List.mem_map.mp hl
      split
      · simp
      · exact splitLines_no_newline d l0 hl0
  refine ⟨h1, by rw [h1, List.length_map], ?_⟩
  intro l hl
  rw [h1] at hl
  obtain ⟨l0, hl0, rfl⟩ := List.mem_map.mp hl
  split
  · rfl
  · rename_i hdiv
    cases hd0 : isDivider l0
    · rfl
    · exact absurd hd0 hdiv

/-! ## C9: conditional idempotence of the level-3 path -/

theorem stripIndent_cons_indent (r : Chars) :
    stripIndent ('\n' :: ' ' :: ' ' :: r) = '\n' :: stripIndent r := by
  simp [stripIndent]

theorem stripIndent_cons_ne (a : Char) (r : Chars) (ha : a ≠ '\n') :
    stripIndent (a :: r) = a :: stripIndent r := by
  match r with
  | [] => rfl
  | [b] => rfl
  | b :: c :: rest => simp [stripIndent, ha]

theorem stripIndent_indent2 (s : Chars) :
    stripIndent (indent2 s ++ ['\n']) = s ++ ['\n'] := by
  induction s with
  | nil => rfl
  | cons c r ih =>
    by_cases hc : c = '\n'
    · subst hc
      simp only [indent2, reduceIte, List.cons_append, stripIndent_cons_indent, ih]
    · simp only [indent2, if_neg hc, List.cons_append, stripIndent_cons_ne c _ hc, ih]

theorem collapse_cons (a b : Char) (r : Chars) :
    collapse (a :: b :: r) =
      if a = '\n' ∧ b = '\n' then '\n' :: collapse r else a :: collapse (b :: r) := by
  by_cases ha : a = '\n' <;> by_cases hb : b = '\n' <;> simp [collapse, ha, hb]

theorem collapse_shape (a : Char) (s : Chars) : ∃ t, collapse (a :: s) = a :: t := by
  cases s with
  | nil => exact ⟨[], rfl⟩
  | cons b r =>
    rw [collapse_cons]
    split
    · rename_i h
      exact ⟨collapse r, by rw [h.1]⟩
    · exact ⟨collapse (b :: r), rfl⟩

theorem collapse_getLast : ∀ s : Chars, (collapse s).getLast? = s.getLast?
  | [] => rfl
  | [c] => rfl
  | a :: b :: r => by
    rw [collapse_cons]
    split
    · rename_i h
      cases r with
      | nil => simp [collapse, h.2]
      | cons x xs =>
        obtain ⟨t, ht⟩ := collapse_shape x xs
        rw [ht, List.getLast?_cons_cons, ← ht, collapse_getLast (x :: xs),
          List.getLast?_cons_cons, List.getLast?_cons_cons]
    · obtain ⟨t, ht⟩ := collapse_shape b r
      rw [ht, List.getLast?_cons_cons, ← ht, collapse_getLast (b :: r),
        List.getLast?_cons_cons]

theorem hasNNN_tail {x : Char} {l : Chars} (h : hasNNN (x :: l) = false) :
    hasNNN l = false := by
  cases l with
  | nil => rfl
  | cons y ys =>
    cases ys with
    | nil => rfl
    | cons z zs =>
      simp only [hasNNN, Bool.or_eq_false_iff] at h
      exact h.2

theorem collapse_of_no_nn : ∀ {s : Chars}, hasNN s = false → collapse s = s
  | [], _ => rfl
  | [c], _ => rfl
  | a :: b :: r, h => by
    simp only [hasNN, Bool.or_eq_false_iff] at h
    obtain ⟨h1, h2⟩ := h
    rw [collapse_cons, if_neg (by
      intro hab
      rw [hab.1, hab.2] at h1
      simp at h1)]
    rw [collapse_of_no_nn h2]

theorem collapse_no_nn : ∀ {s : Chars}, hasNNN s = false → hasNN (collapse s) = false
  | [], _ => rfl
  | [c], _ => rfl
  | a :: b :: r, h => by
    rw [collapse_cons]
    split
    · rename_i hab
      have hr3 : hasNNN r = false := hasNNN_tail (hasNNN_tail h)
      have ihr : hasNN (collapse r) = false := collapse_no_nn hr3
      cases r with
      | nil => rfl
      | cons x xs =>
        have hx : x ≠ '\n' := by
          intro hxx
          rw [hab.1, hab.2, hxx] at h
          simp [hasNNN] at h
        obtain ⟨t, ht⟩ := collapse_shape x xs
        rw [ht]
        simp only [hasNN, Bool.or_eq_false_iff]
        refine ⟨by simp [hx], ?_⟩
        rw [← ht]
        exact ihr
    · rename_i hab
      have ih2 : hasNN (collapse (b :: r)) = false := collapse_no_nn (hasNNN_tail h)
      obtain ⟨t, ht⟩ := collapse_shape b r
      rw [ht]
      simp only [hasNN, Bool.or_eq_false_iff]
      constructor
      · by_cases ha : a = '\n'
        · by_cases hb : b = '\n'
          · exact absurd ⟨ha, hb⟩ hab
          · simp [hb]
        · simp [ha]
      · rw [← ht]
        exact ih2

theorem dropWhile_eq_self_of_head {p : Char → Bool} {l : Chars}
    (h : ∀ c ∈ l.head?, p c = false) : l.dropWhile p = l := by
  cases l with
  | nil => rfl
  | cons x xs => rw [List.dropWhile_cons, if_neg (by simp [h x (by simp)])]

theorem dropWhile_length_le (p : Char → Bool) (l : Chars) :
    (l.dropWhile p).length ≤ l.length := by
  induction l with
  | nil => simp
  | cons x xs ih =>
    rw [List.dropWhile_cons]
    split
    · exact le_trans ih (by simp)
    · exact le_refl _

theorem dropWhile_eq_self_head {p : Char → Bool} {l : Chars} (h : l.dropWhile p = l) :
    ∀ c ∈ l.head?, p c = false := by
  intro c hc
  cases l with
  | nil => simp at hc
  | cons x xs =>
    have hcx : p c = p x := by
      simp only [List.head?_cons, Option.mem_def, Option.some.injEq] at hc
      rw [hc]
    rw [hcx]
    cases hp : p x
    · rfl
    · exfalso
      rw [List.dropWhile_cons, if_pos hp] at h
      have hlen := dropWhile_length_le p xs
      rw [h] at hlen
      simp at hlen

theorem dropWhile_eq_self_of_length {p : Char → Bool} {l : Chars}
    (h : (l.dropWhile p).length = l.length) : l.dropWhile p = l := by
  cases l with
  | nil => rfl
  | cons x xs =>
    rw [List.dropWhile_cons]
    split
    · rename_i hp
      exfalso
      have hle := dropWhile_length_le p xs
      rw [List.dropWhile_cons, if_pos hp, List.length_cons] at h
      omega
    · rfl

theorem pyStrip_bounds {t : Chars} (h : pyStrip t = t) :
    t.dropWhile (fun c => c.isWhitespace) = t ∧
    t.reverse.dropWhile (fun c => c.isWhitespace) = t.reverse := by
  have hlen : t.length = (pyStrip t).length := by rw [h]
  unfold pyStrip at hlen
  rw [List.length_reverse] at hlen
  have hle1 : ((t.dropWhile (fun c => c.isWhitespace)).reverse.dropWhile
      (fun c => c.isWhitespace)).length ≤
      (t.dropWhile (fun c => c.isWhitespace)).reverse.length :=
    dropWhile_length_le _ _
  rw [List.length_reverse] at hle1
  have hle2 : (t.dropWhile (fun c => c.isWhitespace)).length ≤ t.length :=
    dropWhile_length_le _ _
  have hd1 : t.dropWhile (fun c => c.isWhitespace) = t :=
    dropWhile_eq_self_of_length (by omega)
  refine ⟨hd1, ?_⟩
  have hps : pyStrip t = (t.reverse.dropWhile (fun c => c.isWhitespace)).reverse := by
    unfold pyStrip
    rw [hd1]
  rw [hps] at h
  have hrr := congrArg List.reverse h
  rwa [List.reverse_reverse] at hrr

theorem pyStrip_append_newline {s : Chars} (hs : s ≠ [])
    (hh : ∀ c ∈ s.head?, c.isWhitespace = false)
    (hl : ∀ c ∈ s.reverse.head?, c.isWhitespace = false) :
    pyStrip (s ++ ['\n']) = s := by
  cases s with
  | nil => exact absurd rfl hs
  | cons x xs =>
    have hx : x.isWhitespace = false := hh x (by simp)
    unfold pyStrip
    rw [List.cons_append, List.dropWhile_cons, if_neg (by simp [hx]), ← List.cons_append,
      List.reverse_append, List.reverse_singleton, List.singleton_append,
      List.dropWhile_cons, if_pos (by decide), dropWhile_eq_self_of_head hl,
      List.reverse_reverse]

/-- C9 (amended): the level-3 path is idempotent on every docstring that is
already trimmed and has no run of three or more consecutive line-breaks:
re-applying level-3 summarization to its prior output, after stripping the
added two-space indentation, reproduces that output.  (On longer line-break
runs the single-pass `replace('\n\n', '\n')` leaves double breaks that the
second application collapses further — see the counterexample.) -/
theorem C9_idempotent (t : Chars) (w : Int) (r : Chars)
    (h1 : t ≠ []) (h2 : pyStrip t = t) (h3 : hasNNN t = false)
    (hr : getdetail (some t) 3 w = some r) :
    getdetail (some (stripIndent r)) 3 w = some r := by
  have hdt : docText (some t) = t := by
    show (if t = [] then placeholderDoc else pyStrip t) = t
    rw [if_neg h1, h2]
  have hrval : r = indent2 (collapse t) ++ ['\n'] := by
    simp only [getdetail] at hr
    rw [if_pos trivial, hdt] at hr
    injection hr with hr
    exact hr.symm
  subst hrval
  rw [stripIndent_indent2]
  have hhead := dropWhile_eq_self_head (pyStrip_bounds h2).1
  have hlast := dropWhile_eq_self_head (pyStrip_bounds h2).2
  have hcne : collapse t ≠ [] := by
    cases t with
    | nil => exact absurd rfl h1
    | cons a s =>
      obtain ⟨u, hu⟩ := collapse_shape a s
      rw [hu]
      simp
  have hchead : ∀ c ∈ (collapse t).head?, c.isWhitespace = false := by
    intro c hc
    cases t with
    | nil => exact absurd rfl h1
    | cons a s =>
      obtain ⟨u, hu⟩ := collapse_shape a s
      rw [hu] at hc
      have hca : c = a := by
        simp only [List.head?_cons, Option.mem_def, Option.some.injEq] at hc
        exact hc.symm
      rw [hca]
      exact hhead a (by simp)
  have hclast : ∀ c ∈ (collapse t).reverse.head?, c.isWhitespace = false := by
    intro c hc
    rw [List.head?_reverse, collapse_getLast t, ← List.head?_reverse] at hc
    exact hlast c hc
  have hstrip : pyStrip (collapse t ++ ['\n']) = collapse t :=
    pyStrip_append_newline hcne hchead hclast
  have hdt2 : docText (some (collapse t ++ ['\n'])) = collapse t := by
    show (if collapse t ++ ['\n'] = [] then placeholderDoc
      else pyStrip (collapse t ++ ['\n'])) = collapse t
    rw [if_neg (by simp), hstrip]
  simp only [getdetail]
  rw [if_pos trivial, hdt2, collapse_of_no_nn (collapse_no_nn h3)]

/-- C9 witness: the trimmed docstring `"a\n\nb"` (no triple line-break) —
the first pass gives `"a\n  b\n"` and re-applying after unindenting
reproduces it. -/
theorem C9_idempotent_witness :
    (("a\n\nb".toList ≠ ([] : Chars)) ∧ pyStrip ("a\n\nb".toList) = "a\n\nb".toList ∧
      hasNNN ("a\n\nb".toList) = false ∧
      getdetail (some ("a\n\nb".toList)) 3 7 = some ("a\n  b\n".toList)) ∧
    getdetail (some (stripIndent ("a\n  b\n".toList))) 3 7 = some ("a\n  b\n".toList) :=
  ⟨⟨by decide, by decide, by decide, by decide⟩,
    C9_idempotent ("a\n\nb".toList) 7 ("a\n  b\n".toList)
      (by decide) (by decide) (by decide) (by decide)⟩
